import Mathlib

/-!
Verification development for the economic-data-collector repository.

The incremental store (src/collectors/base_collector.py) is embedded as pure
functions over lists of observations; the comparative analytics engine
(src/dashboard.py) is embedded as pure functions over position-indexed series
with missing values.  Dates are modelled as integer day numbers (pandas
timestamps at day granularity), numeric values as rationals, and pandas NaN
cells as `Option.none`.
-/

/-! ## Data model: `Observation` (src/collectors/base_collector.py)

A fetched record holds date, indicator code, value, description and unit.
`unit` is an `Option` because existing rows reloaded from the store have no
unit column (they carry NaN there).
-/

structure Obs where
  date : ℤ
  indicator : String
  value : ℚ
  description : String
  unit : Option String
deriving DecidableEq

/-- The natural key of an observation, in the order used by
`drop_duplicates(subset=["date", "indicator"])`. -/
def Obs.key (o : Obs) : ℤ × String := (o.date, o.indicator)

/-! ## Generic insertion sort

`sort_values` on data whose sort keys are pairwise distinct is determined by
the ordering alone, so any correct sort models it; insertion sort is used
because it reduces definitionally, which lets concrete tables be evaluated
inside proofs.
-/

def insert_le {α : Type} (le : α → α → Bool) (a : α) : List α → List α
  | [] => [a]
  | x :: xs => if le a x then a :: x :: xs else x :: insert_le le a xs

def isort {α : Type} (le : α → α → Bool) (l : List α) : List α :=
  l.foldr (insert_le le) []

theorem insert_le_cons {α : Type} (le : α → α → Bool) (a x : α) (xs : List α) :
    insert_le le a (x :: xs) =
      if le a x then a :: x :: xs else x :: insert_le le a xs := rfl

theorem insert_le_perm {α : Type} (le : α → α → Bool) (a : α) (l : List α) :
    List.Perm (insert_le le a l) (a :: l) := by
  induction l with
  | nil => exact List.Perm.refl _
  | cons x xs ih =>
    rw [insert_le_cons]
    by_cases h : le a x
    · rw [if_pos h]
    · rw [if_neg h]
      exact (ih.cons x).trans (List.Perm.swap a x xs)

theorem isort_perm {α : Type} (le : α → α → Bool) (l : List α) :
    List.Perm (isort le l) l := by
  induction l with
  | nil => exact List.Perm.refl _
  | cons x xs ih => exact (insert_le_perm le x (isort le xs)).trans (ih.cons x)

theorem insert_le_pairwise {α : Type} (le : α → α → Bool)
    (htot : ∀ a b, le a b = true ∨ le b a = true)
    (htrans : ∀ a b c, le a b = true → le b c = true → le a c = true)
    (a : α) (l : List α) (h : l.Pairwise (fun x y => le x y = true)) :
    (insert_le le a l).Pairwise (fun x y => le x y = true) := by
  induction l with
  | nil => simp [insert_le]
  | cons x xs ih =>
    rcases h with _ | ⟨hx, hxs⟩
    rw [insert_le_cons]
    by_cases hax : le a x
    · rw [if_pos hax]
      refine List.Pairwise.cons ?_ (List.Pairwise.cons hx hxs)
      intro y hy
      rcases List.mem_cons.mp hy with rfl | hy
      · exact hax
      · exact htrans a x y hax (hx _ hy)
    · rw [if_neg hax]
      refine List.Pairwise.cons ?_ (ih hxs)
      intro y hy
      have hy' := (insert_le_perm le a xs).mem_iff.mp hy
      rcases List.mem_cons.mp hy' with heq | hy'
      · rcases htot a x with h' | h'
        · exact absurd h' hax
        · rw [heq]; exact h'
      · exact hx _ hy'

theorem isort_pairwise {α : Type} (le : α → α → Bool)
    (htot : ∀ a b, le a b = true ∨ le b a = true)
    (htrans : ∀ a b c, le a b = true → le b c = true → le a c = true)
    (l : List α) :
    (isort le l).Pairwise (fun x y => le x y = true) := by
  induction l with
  | nil => exact List.Pairwise.nil
  | cons x xs ih => exact insert_le_pairwise le htot htrans x _ ih

/-! ## The merge performed by `BaseCollector.save_data`

`final_data = pd.concat([existing_data, new_data])` (with the two emptiness
short-cuts), then
`final_data.drop_duplicates(subset=["date", "indicator"], keep="last")`,
then `final_data.sort_values(["date", "indicator"])`.
-/

/-- `drop_duplicates(subset=["date","indicator"], keep="last")`: a row is kept
exactly when no later row carries the same key; kept rows stay in order. -/
def drop_duplicates_keep_last : List Obs → List Obs
  | [] => []
  | x :: xs =>
    if ∃ y ∈ xs, y.key = x.key then drop_duplicates_keep_last xs
    else x :: drop_duplicates_keep_last xs

theorem ddkl_cons (x : Obs) (xs : List Obs) :
    drop_duplicates_keep_last (x :: xs) =
      if ∃ y ∈ xs, y.key = x.key then drop_duplicates_keep_last xs
      else x :: drop_duplicates_keep_last xs := rfl

/-- The comparison used by `sort_values(["date", "indicator"])`. -/
def obs_le (a b : Obs) : Bool :=
  decide (a.date < b.date ∨ (a.date = b.date ∧ a.indicator ≤ b.indicator))

def sort_obs (l : List Obs) : List Obs := isort obs_le l

/-- The merged observation set that `save_data` writes: concatenate existing
and new data (empty side short-cuts included), dedup on `(date, indicator)`
keeping the last-appended record, and sort by `(date, indicator)`. -/
def final_data (existing_data new_data : List Obs) : List Obs :=
  let combined :=
    if existing_data = [] then new_data
    else if new_data = [] then existing_data
    else existing_data ++ new_data
  sort_obs (drop_duplicates_keep_last combined)

theorem obs_le_total : ∀ a b : Obs, obs_le a b = true ∨ obs_le b a = true := by
  intro a b
  simp only [obs_le, decide_eq_true_eq]
  rcases lt_trichotomy a.date b.date with h | h | h
  · exact Or.inl (Or.inl h)
  · rcases le_total a.indicator b.indicator with h' | h'
    · exact Or.inl (Or.inr ⟨h, h'⟩)
    · exact Or.inr (Or.inr ⟨h.symm, h'⟩)
  · exact Or.inr (Or.inl h)

theorem obs_le_trans : ∀ a b c : Obs,
    obs_le a b = true → obs_le b c = true → obs_le a c = true := by
  intro a b c hab hbc
  simp only [obs_le, decide_eq_true_eq] at *
  rcases hab with h1 | ⟨h1, h1'⟩ <;> rcases hbc with h2 | ⟨h2, h2'⟩
  · exact Or.inl (h1.trans h2)
  · exact Or.inl (h2 ▸ h1)
  · exact Or.inl (h1 ▸ h2)
  · exact Or.inr ⟨h1.trans h2, h1'.trans h2'⟩

theorem sort_obs_perm (l : List Obs) : List.Perm (sort_obs l) l :=
  isort_perm obs_le l

theorem sort_obs_pairwise (l : List Obs) :
    (sort_obs l).Pairwise (fun x y => obs_le x y = true) :=
  isort_pairwise obs_le obs_le_total obs_le_trans l

theorem final_data_eq_append (e i : List Obs) :
    final_data e i = sort_obs (drop_duplicates_keep_last (e ++ i)) := by
  unfold final_data
  by_cases he : e = []
  · subst he; simp
  · by_cases hi : i = []
    · subst hi; simp [he]
    · simp [he, hi]

theorem final_data_perm (e i : List Obs) :
    List.Perm (final_data e i) (drop_duplicates_keep_last (e ++ i)) := by
  rw [final_data_eq_append]; exact sort_obs_perm _

/-! ### Properties of `drop_duplicates_keep_last` -/

theorem ddkl_subset (l : List Obs) : drop_duplicates_keep_last l ⊆ l := by
  induction l with
  | nil => exact fun _ h => h
  | cons x xs ih =>
    rw [ddkl_cons]
    by_cases h : ∃ y ∈ xs, y.key = x.key
    · rw [if_pos h]
      exact fun a ha => List.mem_cons_of_mem x (ih ha)
    · rw [if_neg h]
      intro a ha
      rcases List.mem_cons.mp ha with rfl | ha
      · exact List.mem_cons_self a xs
      · exact List.mem_cons_of_mem x (ih ha)

theorem ddkl_countP (l : List Obs) (k : ℤ × String) :
    (drop_duplicates_keep_last l).countP (fun o => decide (o.key = k)) =
      if ∃ y ∈ l, y.key = k then 1 else 0 := by
  induction l with
  | nil => simp [drop_duplicates_keep_last]
  | cons x xs ih =>
    rw [ddkl_cons]
    by_cases h : ∃ y ∈ xs, y.key = x.key
    · rw [if_pos h]
      obtain ⟨y, hy, hyk⟩ := h
      rw [ih]
      by_cases hk : x.key = k
      · have h1 : ∃ y ∈ xs, y.key = k := ⟨y, hy, hyk.trans hk⟩
        have h2 : ∃ y ∈ x :: xs, y.key = k :=
          ⟨x, List.mem_cons_self x xs, hk⟩
        rw [if_pos h1, if_pos h2]
      · have hiff : (∃ y ∈ x :: xs, y.key = k) ↔ (∃ y ∈ xs, y.key = k) := by
          constructor
          · rintro ⟨z, hz, hzk⟩
            rcases List.mem_cons.mp hz with rfl | hz
            · exact absurd hzk hk
            · exact ⟨z, hz, hzk⟩
          · rintro ⟨z, hz, hzk⟩
            exact ⟨z, List.mem_cons_of_mem x hz, hzk⟩
        rw [if_congr hiff rfl rfl]
    · rw [if_neg h, List.countP_cons, ih]
      by_cases hk : x.key = k
      · have hnx : ¬ ∃ y ∈ xs, y.key = k := by
          rintro ⟨y, hy, hyk⟩
          exact h ⟨y, hy, hyk.trans hk.symm⟩
        have h2 : ∃ y ∈ x :: xs, y.key = k :=
          ⟨x, List.mem_cons_self x xs, hk⟩
        rw [if_neg hnx, if_pos h2]
        simp [hk]
      · have hiff : (∃ y ∈ x :: xs, y.key = k) ↔ (∃ y ∈ xs, y.key = k) := by
          constructor
          · rintro ⟨z, hz, hzk⟩
            rcases List.mem_cons.mp hz with rfl | hz
            · exact absurd hzk hk
            · exact ⟨z, hz, hzk⟩
          · rintro ⟨z, hz, hzk⟩
            exact ⟨z, List.mem_cons_of_mem x hz, hzk⟩
        rw [if_congr hiff rfl rfl]
        simp [hk]

theorem ddkl_keys_nodup (l : List Obs) :
    ((drop_duplicates_keep_last l).map Obs.key).Nodup := by
  induction l with
  | nil => simp [drop_duplicates_keep_last]
  | cons x xs ih =>
    rw [ddkl_cons]
    by_cases h : ∃ y ∈ xs, y.key = x.key
    · rw [if_pos h]; exact ih
    · rw [if_neg h, List.map_cons]
      refine List.Nodup.cons ?_ ih
      intro hmem
      obtain ⟨y, hy, hyk⟩ := List.mem_map.mp hmem
      exact h ⟨y, ddkl_subset xs hy, hyk⟩

theorem ddkl_mem_of_last (l1 l2 : List Obs) (x : Obs)
    (h : ∀ y ∈ l2, y.key ≠ x.key) :
    x ∈ drop_duplicates_keep_last (l1 ++ x :: l2) := by
  induction l1 with
  | nil =>
    have hcond : ¬ ∃ y ∈ l2, y.key = x.key := by
      rintro ⟨y, hy, hyk⟩; exact h y hy hyk
    rw [List.nil_append, ddkl_cons, if_neg hcond]
    exact List.mem_cons_self x _
  | cons a l1' ih =>
    rw [List.cons_append, ddkl_cons]
    by_cases hc : ∃ y ∈ l1' ++ x :: l2, y.key = a.key
    · rw [if_pos hc]; exact ih
    · rw [if_neg hc]
      exact List.mem_cons_of_mem a ih

/-! ## Category partitioning and wide tables (`save_data` write phase)

`save_data` adds a category column via `get_indicator_category`, then for each
category (and once for the whole data) pivots to a wide table with `date` as
the row index and the indicator codes as columns, re-sorts the rows by date
descending, and orders the indicator columns lexicographically.
-/

/-- `BaseCollector.get_indicator_category`: first category of the catalog whose
indicator dictionary contains the code, else "기타". -/
def get_indicator_category (cats : List (String × List (String × String)))
    (series_id : String) : String :=
  match cats.find? (fun c => (c.2.lookup series_id).isSome) with
  | some c => c.1
  | none => "기타"

/-- `final_data[final_data["category"] == category_name]`. -/
def category_data (cats : List (String × List (String × String)))
    (category_name : String) (l : List Obs) : List Obs :=
  l.filter (fun o => decide (get_indicator_category cats o.indicator = category_name))

def int_ge (a b : ℤ) : Bool := decide (b ≤ a)

def str_le (a b : String) : Bool := decide (a ≤ b)

/-- The row order of a written wide table: the distinct dates of the pivoted
data, ordered by `sort_values("date", ascending=False)`. -/
def sheet_dates (l : List Obs) : List ℤ :=
  isort int_ge ((l.map Obs.date).dedup)

/-- The indicator-column order of a written wide table:
`["date"] + sorted(indicator columns)` without the leading date column. -/
def sheet_cols (l : List Obs) : List String :=
  isort str_le ((l.map Obs.indicator).dedup)

def cell_value (l : List Obs) (d : ℤ) (c : String) : Option ℚ :=
  (l.find? (fun o => decide (o.date = d ∧ o.indicator = c))).map Obs.value

/-- `DataFrame.pivot(index="date", columns="indicator", values="value")`:
fails (raises in pandas, `none` here) when some `(date, indicator)` pair
occurs more than once, otherwise produces the wide rows. -/
def pivot_wide (l : List Obs) : Option (List (ℤ × List (Option ℚ))) :=
  if (l.map Obs.key).Nodup then
    some ((sheet_dates l).map fun d => (d, (sheet_cols l).map fun c => cell_value l d c))
  else none

/-- The prefix of a character list before the first occurrence of `" ("`,
the whole list when the separator never occurs: `desc.split(" (")[0]`. -/
def take_before_paren : List Char → List Char
  | [] => []
  | ' ' :: '(' :: _ => []
  | c :: cs => c :: take_before_paren cs

/-- `BaseCollector.get_korean_name`: catalog description, cut at the first
`" ("` when present. -/
def get_korean_name (indicators : List (String × String))
    (indicator_code : String) : String :=
  let desc := (indicators.lookup indicator_code).getD indicator_code
  String.mk (take_before_paren desc.toList)

/-- `get_unit` inside `save_data`: the unit of the first row of the sorted
merged data carrying the indicator, `"N/A"` when absent or NaN. -/
def get_unit (final : List Obs) (indicator_code : String) : String :=
  match final.filter (fun o => decide (o.indicator = indicator_code)) with
  | [] => "N/A"
  | o :: _ => o.unit.getD "N/A"

/-- The synthetic display-name row of a written table. -/
def korean_row (indicators : List (String × String)) (l : List Obs) : List String :=
  "날짜" :: (sheet_cols l).map (get_korean_name indicators)

/-- The synthetic unit row of a written table. -/
def unit_row (l : List Obs) : List String :=
  "단위" :: (sheet_cols l).map (get_unit l)

/-- Modelled from the spec, for comparison with `get_unit`/`korean_row`: the
most recent (latest-dated) Observation carrying an indicator code. -/
def spec_most_recent_obs (l : List Obs) (code : String) : Option Obs :=
  match isort (fun a b => decide (b.date ≤ a.date))
      (l.filter (fun o => decide (o.indicator = code))) with
  | [] => none
  | o :: _ => some o

/-! ## The watermark computed in `BaseCollector.collect_all_data`

`start_date = None; if existing nonempty and the indicator has rows, take the
maximum stored date plus one day (`timedelta(days=1)`).`  Dates are integer
day numbers, so one calendar day is `+ 1`.
-/

def compute_watermark (existing_data : List Obs) (series_id : String) : Option ℤ :=
  if existing_data = [] then none
  else
    match (existing_data.filter (fun o => decide (o.indicator = series_id))).map Obs.date with
    | [] => none
    | d :: ds => some (ds.foldl max d + 1)

theorem foldl_max_le (d : ℤ) (ds : List ℤ) : ∀ x ∈ d :: ds, x ≤ ds.foldl max d := by
  induction ds generalizing d with
  | nil =>
    intro x hx
    rcases List.mem_cons.mp hx with heq | hx
    · rw [heq]; exact le_refl d
    · cases hx
  | cons e es ih =>
    intro x hx
    have hbase : max d e ≤ es.foldl max (max d e) :=
      ih (max d e) _ (List.mem_cons_self _ _)
    rcases List.mem_cons.mp hx with heq | hx
    · rw [heq]; exact le_trans (le_max_left d e) hbase
    · rcases List.mem_cons.mp hx with heq | hx
      · rw [heq]; exact le_trans (le_max_right d e) hbase
      · exact ih (max d e) x (List.mem_cons_of_mem _ hx)

theorem foldl_max_mem (d : ℤ) (ds : List ℤ) : ds.foldl max d ∈ d :: ds := by
  induction ds generalizing d with
  | nil => exact List.mem_cons_self d []
  | cons e es ih =>
    have h := ih (max d e)
    rcases List.mem_cons.mp h with heq | hmem
    · rw [List.foldl_cons, heq]
      rcases max_choice d e with h' | h'
      · rw [h']; exact List.mem_cons_self _ _
      · rw [h']
        exact List.mem_cons_of_mem _ (List.mem_cons_self _ _)
    · exact List.mem_cons_of_mem _ (List.mem_cons_of_mem _ hmem)

/-! ## Comparative analytics engine (src/dashboard.py)

A series is a position-indexed sequence of cells on a shared date axis; a
`none` cell is a pandas NaN.  `series_shift` is the positional
`Series.shift(lag)`, `paired` is `pd.concat([s1, s2], axis=1).dropna()`.
-/

abbrev Series := List (Option ℚ)

/-- pandas `Series.shift(lag)`: cell `idx` of the result is cell `idx - lag`
of the input when that position exists, NaN otherwise. -/
def series_shift (s : Series) (lag : ℤ) : Series :=
  (List.range s.length).map fun (idx : ℕ) =>
    let j : ℤ := (idx : ℤ) - lag
    if 0 ≤ j ∧ j < (s.length : ℤ) then s.getD j.toNat none else none

/-- `pd.concat([series1, series2], axis=1).dropna()`: the positions where
both series hold a value, as value pairs. -/
def paired (series1 series2 : Series) : List (ℚ × ℚ) :=
  (series1.zip series2).filterMap fun p =>
    match p with
    | (some x, some y) => some (x, y)
    | _ => none

/-- A Python float as pandas hands it to the dashboard: either a real value
or NaN.  Every ordering comparison involving NaN is false, as for IEEE
floats. -/
inductive PyFloat where
  | val : ℝ → PyFloat
  | nan : PyFloat

/-- Python `<` on floats: false whenever either side is NaN. -/
noncomputable def pyLt : PyFloat → PyFloat → Bool
  | .val a, .val b => decide (a < b)
  | _, _ => false

/-- Python `<=` on floats: false whenever either side is NaN. -/
noncomputable def pyLe : PyFloat → PyFloat → Bool
  | .val a, .val b => decide (a ≤ b)
  | _, _ => false

/-- Python `abs` on floats: NaN maps to NaN. -/
noncomputable def pyAbs : PyFloat → PyFloat
  | .val a => .val |a|
  | .nan => .nan

/-- The real value under a float, zero under NaN; a proof-side projection. -/
noncomputable def pyVal : PyFloat → ℝ
  | .val a => a
  | .nan => 0

/-- The Pearson correlation coefficient computed by pandas `Series.corr`,
idealised over the rationals.  When either series of the pairing has zero
variance the float computation divides 0.0 by 0.0 and pandas returns NaN;
otherwise the value is cov / sqrt(vx * vy), the square root making it a
real number. -/
noncomputable def pearson (pairs : List (ℚ × ℚ)) : PyFloat :=
  let n : ℚ := pairs.length
  let xs := pairs.map Prod.fst
  let ys := pairs.map Prod.snd
  let mx : ℚ := xs.sum / n
  let my : ℚ := ys.sum / n
  let cov : ℚ := (pairs.map fun p => (p.1 - mx) * (p.2 - my)).sum
  let vx : ℚ := (xs.map fun x => (x - mx) ^ 2).sum
  let vy : ℚ := (ys.map fun y => (y - my) ^ 2).sum
  if vx * vy = 0 then .nan
  else .val ((cov : ℝ) / Real.sqrt ((vx : ℝ) * (vy : ℝ)))

/-- `calculate_correlation` (src/dashboard.py:234): align the two series,
drop rows with a missing side, require at least 3 paired points, else no
value; otherwise the Pearson coefficient of the paired values (possibly
NaN, which is a value, not `None`). -/
noncomputable def calculate_correlation (series1 series2 : Series) :
    Option PyFloat :=
  let combined := paired series1 series2
  if combined.length < 3 then none
  else some (pearson combined)

/-- Python `range(-max_lag, max_lag + 1)`. -/
def lag_range (max_lag : ℕ) : List ℤ :=
  (List.range (2 * max_lag + 1)).map fun (idx : ℕ) => (idx : ℤ) - (max_lag : ℤ)

/-- Python `max(xs, key=f)` under comparison `lt`: the candidate is replaced
only when the new key compares strictly greater, so the first element with
the greatest key wins and a NaN-keyed first candidate is never displaced;
`none` on an empty list (Python raises there). -/
def max_by_key {α β : Type} (lt : β → β → Bool) (f : α → β) :
    List α → Option α
  | [] => none
  | x :: xs => some (xs.foldl (fun b y => if lt (f b) (f y) then y else b) x)

/-- `find_optimal_lag` (src/dashboard.py:242): for each lag in
`[-max_lag, max_lag]` shift `series2` and correlate; a missing (`None`)
correlation is stored as `0` at append time, so the `is not None` filter
keeps every entry and the `(0, 0)` fallback is unreachable for a nonempty
lag range.  A NaN correlation is not `None` and is stored as it is. -/
noncomputable def find_optimal_lag (series1 series2 : Series) (max_lag : ℕ) :
    List (ℤ × PyFloat) × ℤ × PyFloat :=
  let correlations := (lag_range max_lag).map fun lag =>
    (lag, (calculate_correlation series1 (series_shift series2 lag)).getD
      (.val 0))
  let valid_corrs := correlations.filter fun _ => true
  match max_by_key pyLt (fun c => pyAbs c.2) valid_corrs with
  | none => (correlations, 0, .val 0)
  | some best => (correlations, best.1, best.2)

/-- The comparison key `find_optimal_lag` stores for a lag: the correlation
at that lag, with an undefined (`None`) correlation replaced by zero. -/
noncomputable def corr_at_lag (series1 series2 : Series) (lag : ℤ) : PyFloat :=
  (calculate_correlation series1 (series_shift series2 lag)).getD (.val 0)

/-! ## Transform engine (src/dashboard.py:198) -/

/-- pandas `Series.pct_change(periods=n)` without forward filling: ratio to
the value `n` rows earlier minus one, missing when either row is missing
(and when the earlier value is zero, where pandas produces an infinity that
has no counterpart in ℚ; no claim depends on that cell). -/
def pct_change (s : Series) (periods : ℕ) : Series :=
  (List.range s.length).map fun (idx : ℕ) =>
    match s.getD idx none,
        (if periods ≤ idx then s.getD (idx - periods) none else none) with
    | some cur, some prev => if prev = 0 then none else some (cur / prev - 1)
    | _, _ => none

/-- `transform_series` (src/dashboard.py:198), dispatching on the transform
option strings of config.TRANSFORM_OPTIONS. -/
def transform_series (s : Series) (transform_mode : String) : Series :=
  if transform_mode = "원 데이터" then s
  else if transform_mode = "지수화 (기준=100)" then
    let dropped := s.filterMap id
    let first_valid : ℚ := match dropped with | [] => 1 | v :: _ => v
    if first_valid ≠ 0 then s.map (Option.map fun v => v / first_valid * 100)
    else s
  else if transform_mode = "MoM (전월 대비)" then
    (pct_change s 1).map (Option.map fun v => v * 100)
  else if transform_mode = "QoQ (전분기 대비)" then
    (pct_change s 3).map (Option.map fun v => v * 100)
  else if transform_mode = "YoY (전년 동기 대비)" then
    (pct_change s 12).map (Option.map fun v => v * 100)
  else s

/-- `series.dropna().iloc[-2:]`: the last two present values. -/
def valid_values_last2 (s : Series) : List ℚ :=
  let dropped := s.filterMap id
  dropped.drop (dropped.length - 2)

def prev_val (s : Series) : ℚ := (valid_values_last2 s).getD 0 0

def curr_val (s : Series) : ℚ := (valid_values_last2 s).getD 1 0

/-- `calculate_change` (src/dashboard.py:216): percent change between the
last two present values, with the absolute value of the earlier one as the
denominator; no value when fewer than two present values exist or the
earlier one is zero. -/
def calculate_change (s : Series) : Option ℚ :=
  if (s.filterMap id).length < 2 then none
  else
    let valid_values := valid_values_last2 s
    if valid_values.length < 2 then none
    else
      let prev := valid_values.getD 0 0
      let curr := valid_values.getD 1 0
      if prev = 0 then none
      else some ((curr - prev) / |prev| * 100)

/-! ## Helper lemmas for the lag search -/

theorem max_by_foldl_spec {α β : Type} [LinearOrder β] (f : α → β) :
    ∀ (xs : List α) (x : α),
      (xs.foldl (fun b y => if f b < f y then y else b) x = x ∧
        ∀ y ∈ xs, f y ≤ f x) ∨
      (∃ xs1 r xs2, xs = xs1 ++ r :: xs2 ∧
        xs.foldl (fun b y => if f b < f y then y else b) x = r ∧
        f x < f r ∧ (∀ y ∈ xs1, f y < f r) ∧ (∀ y ∈ xs2, f y ≤ f r)) := by
  intro xs
  induction xs with
  | nil =>
    intro x
    left
    exact ⟨rfl, fun y hy => absurd hy (List.not_mem_nil y)⟩
  | cons y ys ih =>
    intro x
    simp only [List.foldl_cons]
    by_cases hxy : f x < f y
    · rw [if_pos hxy]
      rcases ih y with ⟨heq, hle⟩ | ⟨xs1, r, xs2, hsplit, heq, hlt, hbefore, hafter⟩
      · right
        refine ⟨[], y, ys, by rw [List.nil_append], heq, hxy, ?_, ?_⟩
        · intro z hz; exact absurd hz (List.not_mem_nil z)
        · intro z hz; exact hle z hz
      · right
        refine ⟨y :: xs1, r, xs2, by rw [List.cons_append, hsplit], heq,
          lt_trans hxy hlt, ?_, hafter⟩
        intro z hz
        rcases List.mem_cons.mp hz with hzeq | hz
        · rw [hzeq]; exact hlt
        · exact hbefore z hz
    · rw [if_neg hxy]
      have hyx : f y ≤ f x := le_of_not_lt hxy
      rcases ih x with ⟨heq, hle⟩ | ⟨xs1, r, xs2, hsplit, heq, hlt, hbefore, hafter⟩
      · left
        refine ⟨heq, ?_⟩
        intro z hz
        rcases List.mem_cons.mp hz with hzeq | hz
        · rw [hzeq]; exact hyx
        · exact hle z hz
      · right
        refine ⟨y :: xs1, r, xs2, by rw [List.cons_append, hsplit], heq, hlt, ?_,
          hafter⟩
        intro z hz
        rcases List.mem_cons.mp hz with hzeq | hz
        · rw [hzeq]; exact lt_of_le_of_lt hyx hlt
        · exact hbefore z hz

theorem max_by_foldl_split {α β : Type} [LinearOrder β] (f : α → β)
    (c : α) (cs : List α) (m : α)
    (h : cs.foldl (fun b y => if f b < f y then y else b) c = m) :
    ∃ l1 l2, c :: cs = l1 ++ m :: l2 ∧ (∀ y ∈ l1, f y < f m) ∧
      (∀ y ∈ l2, f y ≤ f m) := by
  rcases max_by_foldl_spec f cs c with ⟨heq, hle⟩ |
      ⟨xs1, r, xs2, hsplit, heq, hlt, hbefore, hafter⟩
  · have hxm : c = m := by rw [heq] at h; exact h
    refine ⟨[], cs, by rw [List.nil_append, hxm], ?_, ?_⟩
    · intro z hz; exact absurd hz (List.not_mem_nil z)
    · intro z hz; rw [← hxm]; exact hle z hz
  · have hrm : r = m := by rw [heq] at h; exact h
    subst hrm
    refine ⟨c :: xs1, xs2, by rw [List.cons_append, hsplit], ?_, hafter⟩
    intro z hz
    rcases List.mem_cons.mp hz with hzeq | hz
    · rw [hzeq]; exact hlt
    · exact hbefore z hz

theorem pyLt_nan_left (y : PyFloat) : pyLt PyFloat.nan y = false := by
  cases y <;> rfl

theorem pyAbs_nan : pyAbs PyFloat.nan = PyFloat.nan := rfl

theorem pyAbs_of_ne_nan (p : PyFloat) (h : p ≠ PyFloat.nan) :
    pyAbs p = PyFloat.val |pyVal p| := by
  cases p with
  | val a => rfl
  | nan => exact absurd rfl h

theorem pyLt_val_val (a b : ℝ) :
    pyLt (PyFloat.val a) (PyFloat.val b) = decide (a < b) := rfl

theorem pyLe_val_val (a b : ℝ) :
    pyLe (PyFloat.val a) (PyFloat.val b) = decide (a ≤ b) := rfl

theorem foldl_pyLt_eq_real {α : Type} (fP : α → PyFloat) (fR : α → ℝ) :
    ∀ (xs : List α) (x : α), fP x = PyFloat.val (fR x) →
      (∀ y ∈ xs, fP y = PyFloat.val (fR y)) →
      xs.foldl (fun b y => if pyLt (fP b) (fP y) then y else b) x =
        xs.foldl (fun b y => if fR b < fR y then y else b) x := by
  intro xs
  induction xs with
  | nil =>
    intro x _ _
    rfl
  | cons y ys ih =>
    intro x hx hxs
    have hy : fP y = PyFloat.val (fR y) := hxs y (List.mem_cons_self y ys)
    have hys : ∀ z ∈ ys, fP z = PyFloat.val (fR z) := fun z hz =>
      hxs z (List.mem_cons_of_mem y hz)
    simp only [List.foldl_cons]
    have hstep : (if pyLt (fP x) (fP y) then y else x) =
        (if fR x < fR y then y else x) := by
      rw [hx, hy, pyLt_val_val]
      by_cases h : fR x < fR y
      · simp [h]
      · simp [h]
    rw [hstep]
    by_cases h : fR x < fR y
    · rw [if_pos h]
      exact ih y hy hys
    · rw [if_neg h]
      exact ih x hx hys

theorem lag_range_length (max_lag : ℕ) :
    (lag_range max_lag).length = 2 * max_lag + 1 := by
  rw [lag_range, List.length_map, List.length_range]

theorem lag_range_pairwise (max_lag : ℕ) :
    (lag_range max_lag).Pairwise (fun a b : ℤ => a < b) := by
  rw [lag_range, List.pairwise_map]
  refine (List.pairwise_lt_range _).imp ?_
  intro a b hab
  show (a : ℤ) - max_lag < (b : ℤ) - max_lag
  omega

/-! ## Claim theorems -/

/-- C1: the merge performed by `save_data` yields exactly one record per
`(indicator, date)` key; when both sets hold the key the record from
`new_data` (appended last) is retained, otherwise the sole record carrying
the key survives, and no record outside the two inputs is invented. -/
theorem save_data_merge_dedup (e i : List Obs)
    (he : (e.map Obs.key).Nodup) (hi : (i.map Obs.key).Nodup)
    (k : ℤ × String) (hk : ∃ o ∈ e ++ i, o.key = k) :
    (final_data e i).countP (fun o => decide (o.key = k)) = 1 ∧
    (∀ o ∈ final_data e i, o ∈ e ++ i) ∧
    (∀ o ∈ i, o.key = k → o ∈ final_data e i) ∧
    ((∀ o ∈ i, o.key ≠ k) → ∀ o ∈ e, o.key = k → o ∈ final_data e i) := by
  have hperm := final_data_perm e i
  refine ⟨?_, ?_, ?_, ?_⟩
  · rw [hperm.countP_eq, ddkl_countP, if_pos hk]
  · intro o ho
    exact ddkl_subset _ (hperm.mem_iff.mp ho)
  · intro o ho hok
    obtain ⟨i1, i2, hi_eq⟩ := List.append_of_mem ho
    have hsub : ((o :: i2).map Obs.key).Sublist (i.map Obs.key) := by
      rw [hi_eq]
      exact (List.sublist_append_right i1 (o :: i2)).map Obs.key
    have hnd := List.Nodup.sublist hsub hi
    rw [List.map_cons] at hnd
    have hnotmem : o.key ∉ i2.map Obs.key := (List.nodup_cons.mp hnd).1
    have hlast : ∀ y ∈ i2, y.key ≠ o.key := by
      intro y hy hyk
      exact hnotmem (hyk ▸ List.mem_map_of_mem Obs.key hy)
    refine hperm.mem_iff.mpr ?_
    have hsplit : e ++ i = (e ++ i1) ++ o :: i2 := by
      rw [hi_eq, List.append_assoc]
    rw [hsplit]
    exact ddkl_mem_of_last _ _ _ hlast
  · intro hnone o ho hok
    obtain ⟨e1, e2, he_eq⟩ := List.append_of_mem ho
    have hsub : ((o :: e2).map Obs.key).Sublist (e.map Obs.key) := by
      rw [he_eq]
      exact (List.sublist_append_right e1 (o :: e2)).map Obs.key
    have hnd := List.Nodup.sublist hsub he
    rw [List.map_cons] at hnd
    have hnotmem : o.key ∉ e2.map Obs.key := (List.nodup_cons.mp hnd).1
    have hlast : ∀ y ∈ e2 ++ i, y.key ≠ o.key := by
      intro y hy hyk
      rcases List.mem_append.mp hy with hy2 | hyi
      · exact hnotmem (hyk ▸ List.mem_map_of_mem Obs.key hy2)
      · exact hnone y hyi (hyk.trans hok)
    refine hperm.mem_iff.mpr ?_
    have hsplit : e ++ i = e1 ++ o :: (e2 ++ i) := by
      rw [he_eq, List.append_assoc, List.cons_append]
    rw [hsplit]
    exact ddkl_mem_of_last _ _ _ hlast

def c1_existing : List Obs :=
  [{ date := 1, indicator := "X", value := 5, description := "xd", unit := some "u1" }]

def c1_incoming : List Obs :=
  [{ date := 1, indicator := "X", value := 7, description := "xd", unit := some "u2" }]

/-- Witness for C1: one overlapping key, the incoming record wins. -/
theorem save_data_merge_dedup_witness :
    (final_data c1_existing c1_incoming).countP
        (fun o => decide (o.key = ((1 : ℤ), "X"))) = 1 ∧
    Obs.mk 1 "X" 7 "xd" (some "u2") ∈ final_data c1_existing c1_incoming := by
  have h := save_data_merge_dedup c1_existing c1_incoming (by decide) (by decide)
      ((1 : ℤ), "X") ⟨Obs.mk 1 "X" 5 "xd" (some "u1"), by decide, rfl⟩
  exact ⟨h.1, h.2.2.1 (Obs.mk 1 "X" 7 "xd" (some "u2")) (by decide) rfl⟩

/-- C7: the watermark computed before fetching is one day after the maximum
stored date of the indicator, and absent when the indicator has no prior
observations. -/
theorem compute_watermark_spec (e : List Obs) (ind : String) :
    ((∃ o ∈ e, o.indicator = ind) →
      ∃ m, compute_watermark e ind = some (m + 1) ∧
        (∃ o ∈ e, o.indicator = ind ∧ o.date = m) ∧
        ∀ o ∈ e, o.indicator = ind → o.date ≤ m) ∧
    ((¬ ∃ o ∈ e, o.indicator = ind) → compute_watermark e ind = none) := by
  constructor
  · rintro ⟨o, ho, hoi⟩
    have hne : e ≠ [] := by
      rintro rfl; cases ho
    have hofl : o ∈ e.filter (fun o => decide (o.indicator = ind)) :=
      List.mem_filter.mpr ⟨ho, by simp [hoi]⟩
    cases hml : (e.filter (fun o => decide (o.indicator = ind))).map Obs.date with
    | nil =>
      have := List.mem_map_of_mem Obs.date hofl
      rw [hml] at this
      cases this
    | cons d ds =>
      refine ⟨ds.foldl max d, ?_, ?_, ?_⟩
      · unfold compute_watermark
        rw [if_neg hne, hml]
      · have hmem := foldl_max_mem d ds
        rw [← hml] at hmem
        obtain ⟨o', ho', hdo'⟩ := List.mem_map.mp hmem
        have hf := List.mem_filter.mp ho'
        exact ⟨o', hf.1, by simpa using hf.2, hdo'⟩
      · intro o2 ho2 ho2i
        have hmem : o2.date ∈
            (e.filter (fun o => decide (o.indicator = ind))).map Obs.date :=
          List.mem_map_of_mem _ (List.mem_filter.mpr ⟨ho2, by simp [ho2i]⟩)
        rw [hml] at hmem
        exact foldl_max_le d ds _ hmem
  · intro hno
    unfold compute_watermark
    by_cases hne : e = []
    · rw [if_pos hne]
    · rw [if_neg hne]
      have hfl : e.filter (fun o => decide (o.indicator = ind)) = [] := by
        rw [List.filter_eq_nil_iff]
        intro a ha hdec
        exact hno ⟨a, ha, of_decide_eq_true hdec⟩
      rw [hfl, List.map_nil]

def c7_store : List Obs :=
  [{ date := 18292, indicator := "X", value := 0, description := "", unit := none },
   { date := 18321, indicator := "X", value := 0, description := "", unit := none }]

/-- Witness for C7: day numbers 18292 = 2020-01-31 and 18321 = 2020-02-29
give watermark 18322 = 2020-03-01. -/
theorem compute_watermark_spec_witness :
    (∃ m, compute_watermark c7_store "X" = some (m + 1) ∧
      (∃ o ∈ c7_store, o.indicator = "X" ∧ o.date = m) ∧
      ∀ o ∈ c7_store, o.indicator = "X" → o.date ≤ m) ∧
    compute_watermark c7_store "X" = some 18322 := by
  refine ⟨(compute_watermark_spec c7_store "X").1
    ⟨Obs.mk 18292 "X" 0 "" none, by decide, rfl⟩, by decide⟩

/-- C9: after the dedup step every `(date, indicator)` key is unique, so the
per-category and combined pivots of the write phase can never hit the
duplicate-key failure branch, whatever the input observation sets. -/
theorem save_data_pivot_never_fails
    (cats : List (String × List (String × String))) (category_name : String)
    (e i : List Obs) :
    (pivot_wide (final_data e i)).isSome = true ∧
    (pivot_wide (category_data cats category_name (final_data e i))).isSome = true := by
  have hperm : List.Perm ((final_data e i).map Obs.key)
      ((drop_duplicates_keep_last (e ++ i)).map Obs.key) :=
    (final_data_perm e i).map Obs.key
  have hnd : ((final_data e i).map Obs.key).Nodup :=
    hperm.nodup_iff.mpr (ddkl_keys_nodup _)
  constructor
  · rw [pivot_wide, if_pos hnd]; rfl
  · have hsub : ((category_data cats category_name (final_data e i)).map Obs.key).Sublist
        ((final_data e i).map Obs.key) :=
      (List.filter_sublist _).map Obs.key
    have hnd2 := List.Nodup.sublist hsub hnd
    rw [pivot_wide, if_pos hnd2]; rfl

theorem int_ge_total : ∀ a b : ℤ, int_ge a b = true ∨ int_ge b a = true := by
  intro a b
  simp only [int_ge, decide_eq_true_eq]
  omega

theorem int_ge_trans : ∀ a b c : ℤ,
    int_ge a b = true → int_ge b c = true → int_ge a c = true := by
  intro a b c
  simp only [int_ge, decide_eq_true_eq]
  omega

theorem sheet_dates_strict_desc (l : List Obs) :
    (sheet_dates l).Pairwise (fun a b : ℤ => b < a) := by
  have hpw : (sheet_dates l).Pairwise (fun a b : ℤ => int_ge a b = true) :=
    isort_pairwise int_ge int_ge_total int_ge_trans _
  have hnd : (sheet_dates l).Nodup :=
    (isort_perm int_ge ((l.map Obs.date).dedup)).nodup_iff.mpr (List.nodup_dedup _)
  refine (hpw.and hnd).imp ?_
  intro a b hab
  have h1 : b ≤ a := of_decide_eq_true hab.1
  have h2 : a ≠ b := hab.2
  omega

def c4_existing : List Obs :=
  [{ date := 1, indicator := "X", value := 5, description := "d", unit := none }]

def c4_incoming : List Obs :=
  [{ date := 2, indicator := "X", value := 6, description := "d", unit := none }]

/-- Counterexample to C4: with stored dates 1 and 2, the rows written by
`save_data` come out as `[2, 1]` — date descending — so they are not strictly
ordered by date ascending as the claim states. -/
theorem save_data_rows_not_ascending :
    sheet_dates (final_data c4_existing c4_incoming) = [2, 1] ∧
    ¬ (sheet_dates (final_data c4_existing c4_incoming)).Pairwise
        (fun a b : ℤ => a < b) := by
  decide

/-- C4 amended: the data rows of every written wide table (each category
sheet and the combined sheet) are strictly ordered by date DESCENDING, each
date appearing at most once (`sort_values("date", ascending=False)` over the
distinct pivoted dates). -/
theorem save_data_rows_descending
    (cats : List (String × List (String × String))) (category_name : String)
    (e i : List Obs) :
    (sheet_dates (final_data e i)).Pairwise (fun a b : ℤ => b < a) ∧
    (sheet_dates (category_data cats category_name (final_data e i))).Pairwise
      (fun a b : ℤ => b < a) :=
  ⟨sheet_dates_strict_desc _, sheet_dates_strict_desc _⟩

def c3_existing : List Obs :=
  [{ date := 1, indicator := "X", value := 5, description := "old obs desc",
     unit := some "old" }]

def c3_incoming : List Obs :=
  [{ date := 2, indicator := "X", value := 6, description := "new obs desc",
     unit := some "new" }]

def c3_catalog : List (String × String) := [("X", "Xname (X desc) - monthly")]

/-- Counterexample to C3: the written unit row carries "old", the unit of the
EARLIEST observation, while the most recent observation for the column has
unit "new"; and the display-name row carries the catalog name "Xname", not
the most recent observation's description. -/
theorem save_data_metadata_counterexample :
    unit_row (final_data c3_existing c3_incoming) = ["단위", "old"] ∧
    korean_row c3_catalog (final_data c3_existing c3_incoming) = ["날짜", "Xname"] ∧
    (spec_most_recent_obs (final_data c3_existing c3_incoming) "X").map Obs.unit
      = some (some "new") ∧
    (spec_most_recent_obs (final_data c3_existing c3_incoming) "X").map
        Obs.description = some "new obs desc" := by
  decide

/-- C3 corrected: the display-name row of each written table is drawn from
the static indicator catalog, and the unit value of every indicator column
comes from the EARLIEST-dated merged observation carrying that code
(`iloc[0]` of the date-ascending sorted data), `"N/A"` when missing — not
from the most recent observation. -/
theorem save_data_metadata_amended (e i : List Obs)
    (indicators : List (String × String)) (code : String)
    (hc : code ∈ sheet_cols (final_data e i)) :
    korean_row indicators (final_data e i) =
      "날짜" :: (sheet_cols (final_data e i)).map (get_korean_name indicators) ∧
    ∃ o ∈ final_data e i, o.indicator = code ∧
      get_unit (final_data e i) code = o.unit.getD "N/A" ∧
      ∀ o2 ∈ final_data e i, o2.indicator = code → o.date ≤ o2.date := by
  refine ⟨rfl, ?_⟩
  have hex : ∃ o ∈ final_data e i, o.indicator = code := by
    have hmem := (isort_perm str_le _).mem_iff.mp hc
    obtain ⟨o, ho, hoi⟩ := List.mem_map.mp (List.mem_dedup.mp hmem)
    exact ⟨o, ho, hoi⟩
  obtain ⟨o0, ho0, ho0i⟩ := hex
  have hfmem : o0 ∈ (final_data e i).filter (fun o => decide (o.indicator = code)) :=
    List.mem_filter.mpr ⟨ho0, by simp [ho0i]⟩
  cases hfl : (final_data e i).filter (fun o => decide (o.indicator = code)) with
  | nil =>
    rw [hfl] at hfmem
    cases hfmem
  | cons o rest =>
    have hpw0 : ((final_data e i).filter
        (fun o => decide (o.indicator = code))).Pairwise
        (fun x y => obs_le x y = true) := by
      refine List.Pairwise.sublist (List.filter_sublist _) ?_
      rw [final_data_eq_append]
      exact sort_obs_pairwise _
    rw [hfl] at hpw0
    have hohead : o ∈ (final_data e i).filter
        (fun o => decide (o.indicator = code)) := by
      rw [hfl]
      exact List.mem_cons_self o rest
    have ho_in : o ∈ final_data e i := (List.mem_filter.mp hohead).1
    have ho_ind : o.indicator = code := by
      simpa using (List.mem_filter.mp hohead).2
    refine ⟨o, ho_in, ho_ind, ?_, ?_⟩
    · unfold get_unit
      rw [hfl]
    · intro o2 ho2 ho2i
      have ho2f : o2 ∈ (final_data e i).filter
          (fun o => decide (o.indicator = code)) :=
        List.mem_filter.mpr ⟨ho2, by simp [ho2i]⟩
      rw [hfl] at ho2f
      rcases List.mem_cons.mp ho2f with heq | hrest
      · rw [heq]
      · have hle := (List.pairwise_cons.mp hpw0).1 o2 hrest
        have := of_decide_eq_true hle
        rcases this with h | ⟨h, _⟩
        · exact le_of_lt h
        · exact le_of_eq h

/-- Witness for the corrected C3: at the concrete store the unit written for
column "X" is the earliest record's "old". -/
theorem save_data_metadata_amended_witness :
    (∃ o ∈ final_data c3_existing c3_incoming, o.indicator = "X" ∧
      get_unit (final_data c3_existing c3_incoming) "X" = o.unit.getD "N/A" ∧
      ∀ o2 ∈ final_data c3_existing c3_incoming, o2.indicator = "X" →
        o.date ≤ o2.date) ∧
    get_unit (final_data c3_existing c3_incoming) "X" = "old" :=
  ⟨(save_data_metadata_amended c3_existing c3_incoming c3_catalog "X"
      (by decide)).2, by decide⟩

/-- C6: the indexed (base = 100) transform divides every value by the first
non-missing value and multiplies by 100, preserving missing cells; when that
first non-missing value is exactly zero the input comes back unchanged. -/
theorem transform_series_indexed_spec (s : Series) :
    (∀ fv : ℚ, (s.filterMap id).head? = some fv → fv ≠ 0 →
      transform_series s "지수화 (기준=100)" =
        s.map (Option.map fun v => v / fv * 100)) ∧
    ((s.filterMap id).head? = some 0 →
      transform_series s "지수화 (기준=100)" = s) := by
  constructor
  · intro fv hfv hne
    unfold transform_series
    rw [if_neg (by decide : ¬("지수화 (기준=100)" = "원 데이터")), if_pos rfl]
    cases hd : s.filterMap id with
    | nil =>
      rw [hd] at hfv
      cases hfv
    | cons v rest =>
      rw [hd] at hfv
      have hv : v = fv := by
        simpa using hfv
      subst hv
      dsimp only
      rw [if_pos hne]
  · intro hfv
    unfold transform_series
    rw [if_neg (by decide : ¬("지수화 (기준=100)" = "원 데이터")), if_pos rfl]
    cases hd : s.filterMap id with
    | nil =>
      rw [hd] at hfv
      cases hfv
    | cons v rest =>
      rw [hd] at hfv
      have hv : v = 0 := by
        simpa using hfv
      dsimp only
      rw [hv, if_neg (by simp)]

/-- Witness for C6: `[50, 100, 150]` maps to `[100, 200, 300]`. -/
theorem transform_series_indexed_spec_witness :
    transform_series [some 50, some 100, some 150] "지수화 (기준=100)" =
      [some 100, some 200, some 300] := by
  have h := (transform_series_indexed_spec [some 50, some 100, some 150]).1
    50 (by decide) (by norm_num)
  rw [h]
  norm_num

/-- C10: with at least two present values and a nonzero second-to-last one,
`calculate_change` returns `(curr - prev) / |prev| * 100`; for negative
`prev` the sign of the result is the sign of `curr - prev`, the opposite of
the plain formula `(curr - prev) / prev * 100`. -/
theorem calculate_change_spec (s : Series)
    (h2 : 2 ≤ (s.filterMap id).length) (hp : prev_val s ≠ 0) :
    calculate_change s =
      some ((curr_val s - prev_val s) / |prev_val s| * 100) ∧
    (prev_val s < 0 →
      ((0 < (curr_val s - prev_val s) / |prev_val s| * 100 ↔
        prev_val s < curr_val s) ∧
      (curr_val s ≠ prev_val s →
        (curr_val s - prev_val s) / |prev_val s| * 100 ≠
          (curr_val s - prev_val s) / prev_val s * 100))) := by
  have hlen : (valid_values_last2 s).length = 2 := by
    unfold valid_values_last2
    rw [List.length_drop]
    omega
  unfold prev_val curr_val at *
  constructor
  · unfold calculate_change
    rw [if_neg (by omega), if_neg (by omega), if_neg hp]
  · intro hneg
    have hpos : (0 : ℚ) < -(valid_values_last2 s).getD 0 0 := by linarith
    set p : ℚ := (valid_values_last2 s).getD 0 0 with hpdef
    set c : ℚ := (valid_values_last2 s).getD 1 0 with hcdef
    have habs : |p| = -p := abs_of_neg hneg
    constructor
    · rw [habs]
      have hrw : (c - p) / -p * 100 = (c - p) * (100 / -p) := by ring
      rw [hrw]
      have hk : (0 : ℚ) < 100 / -p := div_pos (by norm_num) hpos
      constructor
      · intro h
        by_contra hcon
        push_neg at hcon
        have hcp : c - p ≤ 0 := by linarith
        nlinarith
      · intro h
        have hcp : 0 < c - p := by linarith
        exact mul_pos hcp hk
    · intro hne heq
      rw [habs] at heq
      have hp0 : p ≠ 0 := hp
      field_simp at heq
      have hx : (c - p) * 100 * p = 0 := by linarith
      rcases mul_eq_zero.mp hx with h1 | h1
      · rcases mul_eq_zero.mp h1 with h2 | h2
        · exact hne (by linarith)
        · norm_num at h2
      · exact hp0 h1

/-- Witness for C10: `calculate_change` on present values `[-4, -2]` is
`(-2 - -4) / 4 * 100 = 50`, positive because the series rose. -/
theorem calculate_change_spec_witness :
    calculate_change [some (-4 : ℚ), some (-2)] =
      some ((curr_val [some (-4 : ℚ), some (-2)] -
          prev_val [some (-4 : ℚ), some (-2)]) /
        |prev_val [some (-4 : ℚ), some (-2)]| * 100) ∧
    calculate_change [some (-4 : ℚ), some (-2)] = some 50 :=
  ⟨(calculate_change_spec [some (-4), some (-2)] (by decide) (by norm_num
      [prev_val, valid_values_last2, List.filterMap_cons, List.filterMap_nil])).1,
    by norm_num [calculate_change, valid_values_last2, List.filterMap_cons,
      List.filterMap_nil]⟩

/-- C8: `calculate_correlation` keeps only positions where both series hold a
value; with fewer than 3 paired points it returns no value (not an
exception), otherwise the Pearson coefficient of the paired values. -/
theorem calculate_correlation_spec (series1 series2 : Series) :
    (calculate_correlation series1 series2 = none ↔
      (paired series1 series2).length < 3) ∧
    (3 ≤ (paired series1 series2).length →
      calculate_correlation series1 series2 =
        some (pearson (paired series1 series2))) ∧
    (∀ x y : ℚ, (x, y) ∈ paired series1 series2 →
      ∃ idx : ℕ, series1[idx]? = some (some x) ∧ series2[idx]? = some (some y)) := by
  refine ⟨?_, ?_, ?_⟩
  · unfold calculate_correlation
    by_cases h : (paired series1 series2).length < 3
    · rw [if_pos h]
      simpa using h
    · rw [if_neg h]
      simpa using h
  · intro h
    unfold calculate_correlation
    rw [if_neg (by omega)]
  · intro x y hmem
    unfold paired at hmem
    obtain ⟨p, hp, hpe⟩ := List.mem_filterMap.mp hmem
    obtain ⟨p1, p2⟩ := p
    cases p1 with
    | none => cases hpe
    | some u =>
      cases p2 with
      | none => cases hpe
      | some v =>
        have huv : u = x ∧ v = y := by
          simpa [Prod.ext_iff] using hpe
        obtain ⟨idx, hidx⟩ := List.getElem?_of_mem hp
        rw [List.getElem?_zip_eq_some] at hidx
        refine ⟨idx, ?_, ?_⟩
        · rw [← huv.1]; exact hidx.1
        · rw [← huv.2]; exact hidx.2

/-- Witness for C8: two series sharing only two both-present positions give
an undefined correlation. -/
theorem calculate_correlation_spec_witness :
    calculate_correlation [some 1, some 2, some 3] [some 1, none, some 2] =
      none ∧
    (paired [some 1, some 2, some 3] [some 1, none, some 2]).length < 3 :=
  ⟨(calculate_correlation_spec [some 1, some 2, some 3]
      [some 1, none, some 2]).1.mpr (by decide), by decide⟩

theorem filter_const_true {α : Type} (l : List α) :
    l.filter (fun _ => true) = l := by
  induction l with
  | nil => rfl
  | cons x xs ih => simp [List.filter, ih]

theorem max_by_key_eq_none {α β : Type} (lt : β → β → Bool) (f : α → β)
    (l : List α) : max_by_key lt f l = none ↔ l = [] := by
  cases l <;> simp [max_by_key]

theorem find_optimal_lag_eq (series1 series2 : Series) (max_lag : ℕ) :
    find_optimal_lag series1 series2 max_lag =
      (match max_by_key pyLt (fun c : ℤ × PyFloat => pyAbs c.2)
          ((lag_range max_lag).map fun lag =>
            (lag, corr_at_lag series1 series2 lag)) with
      | none =>
        ((lag_range max_lag).map fun lag =>
          (lag, corr_at_lag series1 series2 lag), 0, PyFloat.val 0)
      | some best =>
        ((lag_range max_lag).map fun lag =>
          (lag, corr_at_lag series1 series2 lag), best.1, best.2)) := by
  unfold find_optimal_lag
  dsimp only
  rw [filter_const_true]
  rfl

def c5_series1 : Series := [some 1, some 1, some 1, some 2, some 3]

def c5_series2 : Series := [some 1, some 2, some 3, some 4, some 5]

/-- Counterexample to C5: at `series1 = [1,1,1,2,3]`, `series2 = [1,2,3,4,5]`,
`max_lag = 2`, the overlap at lag `-2` pairs the constant `[1,1,1]` with
`[3,4,5]`, so pandas' correlation there is NaN; the NaN is stored (it is not
`None`) and Python's `max` never displaces a NaN first candidate, so the
function returns lag `-2` with correlation NaN although lag `+2` has a
defined correlation of absolute value 1 — the returned lag does not maximize
the absolute correlation. -/
theorem find_optimal_lag_nan_counterexample :
    (find_optimal_lag c5_series1 c5_series2 2).2 = (-2, PyFloat.nan) ∧
    corr_at_lag c5_series1 c5_series2 2 = PyFloat.val 1 ∧
    pyLe (pyAbs (corr_at_lag c5_series1 c5_series2 2))
      (pyAbs (find_optimal_lag c5_series1 c5_series2 2).2.2) = false := by
  have h5 : lag_range 2 = [-2, -1, 0, 1, 2] := by decide
  have hpair : paired c5_series1 (series_shift c5_series2 (-2)) =
      [(1, 3), (1, 4), (1, 5)] := by decide
  have hpear : pearson [((1 : ℚ), (3 : ℚ)), (1, 4), (1, 5)] = PyFloat.nan := by
    unfold pearson
    rw [if_pos (by norm_num [List.map_cons, List.map_nil, List.sum_cons,
      List.sum_nil])]
  have hm2 : corr_at_lag c5_series1 c5_series2 (-2) = PyFloat.nan := by
    unfold corr_at_lag calculate_correlation
    rw [hpair]
    simp only [List.length_cons, List.length_nil]
    rw [if_neg (by norm_num)]
    rw [hpear]
    rfl
  have hpair2 : paired c5_series1 (series_shift c5_series2 2) =
      [(1, 1), (2, 2), (3, 3)] := by decide
  have hpear2 : pearson [((1 : ℚ), (1 : ℚ)), (2, 2), (3, 3)] =
      PyFloat.val 1 := by
    unfold pearson
    rw [if_neg (by norm_num [List.map_cons, List.map_nil, List.sum_cons,
      List.sum_nil])]
    congr 1
    push_cast [List.map_cons, List.map_nil, List.sum_cons, List.sum_nil]
    norm_num
    rw [show (4 : ℝ) = 2 ^ 2 by norm_num,
      Real.sqrt_sq (by norm_num : (0 : ℝ) ≤ 2)]
    norm_num
  have hc2 : corr_at_lag c5_series1 c5_series2 2 = PyFloat.val 1 := by
    unfold corr_at_lag calculate_correlation
    rw [hpair2]
    simp only [List.length_cons, List.length_nil]
    rw [if_neg (by norm_num)]
    rw [hpear2]
    rfl
  have hfol : (find_optimal_lag c5_series1 c5_series2 2).2 =
      (-2, PyFloat.nan) := by
    rw [find_optimal_lag_eq, h5]
    simp only [List.map_cons, List.map_nil, hm2]
    simp only [max_by_key, List.foldl_cons, List.foldl_nil, pyAbs_nan,
      pyLt_nan_left, Bool.false_eq_true, if_false]
  have h22 : (find_optimal_lag c5_series1 c5_series2 2).2.2 = PyFloat.nan := by
    rw [hfol]
  refine ⟨hfol, hc2, ?_⟩
  rw [hc2, h22, pyAbs_nan]
  rfl

/-- C5 corrected: provided the stored correlation at every lag of the range
is a well-defined number — not NaN; undefined (`None`) entries stored as
zero qualify — `find_optimal_lag` picks a lag of `[-max_lag, max_lag]` whose
absolute stored correlation is maximal, reports that lag's stored
correlation, and among tied lags picks the most negative one, the first
encountered iterating upward from `-max_lag`.  Without the proviso a NaN
correlation stored at an earlier lag is never displaced (see the
counterexample). -/
theorem find_optimal_lag_spec (series1 series2 : Series) (max_lag : ℕ)
    (hdef : ∀ lag ∈ lag_range max_lag,
      corr_at_lag series1 series2 lag ≠ PyFloat.nan) :
    (find_optimal_lag series1 series2 max_lag).2.1 ∈ lag_range max_lag ∧
    (find_optimal_lag series1 series2 max_lag).2.2 =
      corr_at_lag series1 series2
        (find_optimal_lag series1 series2 max_lag).2.1 ∧
    ∀ lag ∈ lag_range max_lag,
      pyLe (pyAbs (corr_at_lag series1 series2 lag))
        (pyAbs (corr_at_lag series1 series2
          (find_optimal_lag series1 series2 max_lag).2.1)) = true ∧
      (pyAbs (corr_at_lag series1 series2 lag) =
        pyAbs (corr_at_lag series1 series2
          (find_optimal_lag series1 series2 max_lag).2.1) →
        (find_optimal_lag series1 series2 max_lag).2.1 ≤ lag) := by
  have hvalL : ∀ y ∈ ((lag_range max_lag).map fun lag =>
      (lag, corr_at_lag series1 series2 lag)),
      pyAbs y.2 = PyFloat.val |pyVal y.2| := by
    intro y hy
    obtain ⟨lag, hlag, hglag⟩ := List.mem_map.mp hy
    have hnn : y.2 ≠ PyFloat.nan := by
      rw [← hglag]
      exact hdef lag hlag
    exact pyAbs_of_ne_nan _ hnn
  cases hL : ((lag_range max_lag).map fun lag =>
      (lag, corr_at_lag series1 series2 lag)) with
  | nil =>
    exfalso
    have h0 := congrArg List.length hL
    rw [List.length_map, lag_range_length] at h0
    simp at h0
  | cons c cs =>
    have hvc : pyAbs c.2 = PyFloat.val |pyVal c.2| :=
      hvalL c (by rw [hL]; exact List.mem_cons_self c cs)
    have hvcs : ∀ y ∈ cs, pyAbs y.2 = PyFloat.val |pyVal y.2| := fun y hy =>
      hvalL y (by rw [hL]; exact List.mem_cons_of_mem c hy)
    have hmb : max_by_key pyLt (fun c : ℤ × PyFloat => pyAbs c.2)
        ((lag_range max_lag).map fun lag =>
          (lag, corr_at_lag series1 series2 lag)) =
        some (cs.foldl (fun b y =>
          if pyLt (pyAbs b.2) (pyAbs y.2) then y else b) c) := by
      rw [hL]
      rfl
    set m := cs.foldl (fun b y =>
      if pyLt (pyAbs b.2) (pyAbs y.2) then y else b) c with hm
    have hreq : cs.foldl (fun b y =>
        if |pyVal b.2| < |pyVal y.2| then y else b) c = m := by
      rw [hm]
      exact (foldl_pyLt_eq_real (fun d : ℤ × PyFloat => pyAbs d.2)
        (fun d : ℤ × PyFloat => |pyVal d.2|) cs c hvc hvcs).symm
    obtain ⟨l1, l2, hsplit, hbefore, hafter⟩ :=
      max_by_foldl_split (fun d : ℤ × PyFloat => |pyVal d.2|) c cs m hreq
    have hsplitL : ((lag_range max_lag).map fun lag =>
        (lag, corr_at_lag series1 series2 lag)) = l1 ++ m :: l2 := by
      rw [hL]
      exact hsplit
    have hmL : m ∈ ((lag_range max_lag).map fun lag =>
        (lag, corr_at_lag series1 series2 lag)) := by
      rw [hsplitL]
      exact List.mem_append.mpr (Or.inr (List.mem_cons_self _ _))
    obtain ⟨lag0, hlag0, hglag0⟩ := List.mem_map.mp hmL
    have hb1 : m.1 = lag0 := by rw [← hglag0]
    have hb2 : m.2 = corr_at_lag series1 series2 m.1 := by
      rw [← hglag0]
    have hvm : pyAbs m.2 = PyFloat.val |pyVal m.2| := hvalL m hmL
    have hpw : ((lag_range max_lag).map fun lag =>
        (lag, corr_at_lag series1 series2 lag)).Pairwise
        (fun p q : ℤ × PyFloat => p.1 < q.1) := by
      rw [List.pairwise_map]
      exact lag_range_pairwise max_lag
    rw [hsplitL] at hpw
    rw [find_optimal_lag_eq, hmb]
    refine ⟨?_, ?_, ?_⟩
    · show m.1 ∈ lag_range max_lag
      rw [hb1]
      exact hlag0
    · show m.2 = corr_at_lag series1 series2 m.1
      exact hb2
    · intro lag hlag
      have hmemL : (lag, corr_at_lag series1 series2 lag) ∈
          ((lag_range max_lag).map fun lag =>
            (lag, corr_at_lag series1 series2 lag)) :=
        List.mem_map_of_mem _ hlag
      have hvlag : pyAbs (corr_at_lag series1 series2 lag) =
          PyFloat.val |pyVal (corr_at_lag series1 series2 lag)| :=
        hvalL _ hmemL
      rw [hsplitL] at hmemL
      show pyLe (pyAbs (corr_at_lag series1 series2 lag))
          (pyAbs (corr_at_lag series1 series2 m.1)) = true ∧
        (pyAbs (corr_at_lag series1 series2 lag) =
          pyAbs (corr_at_lag series1 series2 m.1) → m.1 ≤ lag)
      rw [← hb2]
      rcases List.mem_append.mp hmemL with h1 | h12
      · have hlt : |pyVal (corr_at_lag series1 series2 lag)| <
            |pyVal m.2| := by
          simpa using hbefore _ h1
        constructor
        · rw [hvlag, hvm, pyLe_val_val]
          exact decide_eq_true (le_of_lt hlt)
        · intro heq
          rw [hvlag, hvm] at heq
          injection heq with heq2
          exact absurd heq2 (ne_of_lt hlt)
      · rcases List.mem_cons.mp h12 with heq | h2
        · have h1eq : lag = m.1 := by rw [← heq]
          have h2eq : corr_at_lag series1 series2 lag = m.2 := by
            rw [← heq]
          constructor
          · rw [h2eq, hvm, pyLe_val_val]
            exact decide_eq_true (le_refl _)
          · intro _
            rw [h1eq]
        · have hle2 : |pyVal (corr_at_lag series1 series2 lag)| ≤
              |pyVal m.2| := by
            simpa using hafter _ h2
          have hkey : m.1 < lag := by
            have hp2 := (List.pairwise_append.mp hpw).2.1
            have := (List.pairwise_cons.mp hp2).1 _ h2
            simpa using this
          constructor
          · rw [hvlag, hvm, pyLe_val_val]
            exact decide_eq_true hle2
          · intro _
            exact le_of_lt hkey

/-- Witness for the corrected C5 at a concrete input where every stored
correlation is a number: lag 1 lies in the searched range and its absolute
stored correlation does not beat the chosen lag's. -/
theorem find_optimal_lag_spec_witness :
    (1 : ℤ) ∈ lag_range 2 ∧
    pyLe (pyAbs (corr_at_lag [] [] 1))
      (pyAbs (corr_at_lag [] [] (find_optimal_lag [] [] 2).2.1)) = true := by
  have hdef : ∀ lag ∈ lag_range 2, corr_at_lag [] [] lag ≠ PyFloat.nan := by
    intro lag _ h
    exact PyFloat.noConfusion h
  exact ⟨by decide, ((find_optimal_lag_spec [] [] 2 hdef).2.2 1 (by decide)).1⟩

/-- C2 (code bug witnessed): with two empty series the correlation is
undefined at every lag in the range, yet `find_optimal_lag` with
`max_lag = 2` returns lag `-2` with correlation `0`, not the documented
`(0, 0)`: the `None` → `0` substitution happens when each entry is stored,
so the `is not None` filter keeps everything, the `(0, 0)` fallback is dead
code, and the first lag of the tie at `|0|` wins. -/
theorem find_optimal_lag_all_undefined_eval :
    ((lag_range 2).map fun lag =>
      calculate_correlation ([] : Series) (series_shift ([] : Series) lag)) =
      [none, none, none, none, none] ∧
    (find_optimal_lag ([] : Series) ([] : Series) 2).2 =
      (-2, PyFloat.val 0) := by
  have h5 : lag_range 2 = [-2, -1, 0, 1, 2] := by decide
  have hcc : ∀ lag : ℤ,
      calculate_correlation ([] : Series) (series_shift ([] : Series) lag) =
        none := fun _ => rfl
  constructor
  · rw [h5]
    rfl
  · rw [find_optimal_lag_eq, h5]
    have hca : ∀ lag : ℤ, corr_at_lag [] [] lag = PyFloat.val 0 := by
      intro lag
      unfold corr_at_lag
      rw [hcc lag]
      rfl
    have hstep : pyLt (pyAbs (PyFloat.val 0)) (pyAbs (PyFloat.val 0)) =
        false := by
      simp [pyAbs, pyLt]
    simp only [List.map_cons, List.map_nil, hca]
    simp only [max_by_key, List.foldl_cons, List.foldl_nil, hstep,
      Bool.false_eq_true, if_false]
